import Mathlib

/-!
Verification of the `the_social_network` repository core against its
natural-language specification.  The Rust source is shallowly embedded:
pure functions become Lean functions, the hand-written stream state
machines become explicit state-passing functions over lists (a source
stream is modelled as the list of items it will yield, so a poll of a
`Waiting` source always resolves to `Yielded`/`Finished`; the `Pending`
branch of the Rust code is unreachable in this model), and fallible code
returns `Except`/`Option` (with `Option.none` reserved for a Rust panic
where noted).
-/

namespace SocialNetwork

/-! ## Stream helpers (`crates/stream_helpers/src/lib.rs`)

`StreamState` mirrors the Rust enum of the same name.  The two Rust
combinators `MergeSortedStreams` and `MergeSortedTryStreams` have
identical `poll_next` bodies except for the comparison closure passed
to `min_by`; the model therefore takes the strict comparison `lt` as a
parameter and instantiates it twice. -/

inductive StreamState (α : Type) where
  | finished
  | waiting
  | yielded (t : α)
  deriving Repr, DecidableEq

/-- One source of the merge: the not-yet-polled remainder of the stream
paired with its `StreamState` buffer, mirroring the
`Vec<(T, StreamState<I>)>` field of `MergeSortedStreams`. -/
abbrev MSource (α : Type) := List α × StreamState α

/-- The poll-phase of `poll_next` for one source: a `Waiting` source is
advanced (the model stream is a pure list, so it is always `Ready`);
`Finished` and `Yielded` sources are left untouched. -/
def pollSource {α : Type} : MSource α → MSource α
  | (l, .waiting) =>
    match l with
    | [] => (l, .finished)
    | a :: t => (t, .yielded a)
  | s => s

/-- All items still owned by a source: the buffered value (if any)
followed by the unpolled remainder. -/
def srcItems {α : Type} : MSource α → List α
  | (l, .yielded a) => a :: l
  | (l, _) => l

/-- All items still owned by the whole merge state. -/
def contents {α : Type} (ss : List (MSource α)) : List α :=
  (ss.map srcItems).flatten

/-- Number of items still owned: the termination measure of the merge. -/
def msMeasure {α : Type} (ss : List (MSource α)) : Nat :=
  (contents ss).length

/-- The emission phase of `poll_next`: find the `Yielded` source whose
buffered value is minimal for the comparison `lt` (Rust `min_by` keeps
the first of equal minima, so the head of the list wins unless a later
source is strictly smaller), emit that value and put the source back to
`Waiting` via `mem::swap`.  Returns `none` when no source is `Yielded`
(merged stream done). -/
def takeMinBy {α : Type} (lt : α → α → Bool) :
    List (MSource α) → Option (α × List (MSource α))
  | [] => none
  | (l, .yielded a) :: rest =>
    match takeMinBy lt rest with
    | some (b, rest') =>
      if lt b a then some (b, (l, .yielded a) :: rest')
      else some (a, (l, .waiting) :: rest)
    | none => some (a, (l, .waiting) :: rest)
  | (l, st) :: rest =>
    (takeMinBy lt rest).map (fun p => (p.1, (l, st) :: p.2))

/-- One round of `poll_next` after another, indexed by fuel: each round
runs the poll phase over every source and then the emission phase.  The
merged stream retires one item per round, so `msMeasure ss` rounds drain
the state completely; `mergeRunBy` instantiates the fuel that way, and
`mergeRunFuel_eq` below shows any sufficient fuel gives the same list,
so the fuel is only a structural-recursion device, not semantics. -/
def mergeRunFuel {α : Type} (lt : α → α → Bool) :
    Nat → List (MSource α) → List α
  | 0, _ => []
  | fuel + 1, ss =>
    match takeMinBy lt (ss.map pollSource) with
    | none => []
    | some (a, ss'') => a :: mergeRunFuel lt fuel ss''

/-- The full merged stream, collected: repeatedly run the poll phase and
the emission phase of `poll_next` until all sources are finished. -/
def mergeRunBy {α : Type} (lt : α → α → Bool) (ss : List (MSource α)) : List α :=
  mergeRunFuel lt (msMeasure ss) ss

/-! ### Invariants of the merge state -/

/-- A finished source has no remainder (enough for the permutation
argument, which does not need any ordering). -/
def finOK {α : Type} (s : MSource α) : Prop :=
  s.2 = StreamState.finished → s.1 = []

/-! ### `MergeSortedStreams`: instantiation with the `Ord` comparison -/

/-- The strict comparison used by `MergeSortedStreams::poll_next`
(`v1.cmp(v2)` fed to `min_by`, which replaces the running minimum only
on a strictly smaller value). -/
def ordLt {α : Type} [LinearOrder α] : α → α → Bool :=
  fun x y => decide (x < y)

/-- `collect(MergeSortedStreams::new(inputs))`: every source starts in
the `Waiting` state. -/
def collectMerge {α : Type} [LinearOrder α] (inputs : List (List α)) : List α :=
  mergeRunBy ordLt (inputs.map (fun l => (l, StreamState.waiting)))

/-- The per-source invariant maintained by the sorted merge: the
unpolled remainder is sorted, a buffered value is a lower bound of the
remainder, and a finished source has no remainder left. -/
def srcOK {α : Type} [LinearOrder α] : MSource α → Prop
  | (l, .waiting) => l.Sorted (· ≤ ·)
  | (l, .finished) => l = []
  | (l, .yielded a) => l.Sorted (· ≤ ·) ∧ ∀ x ∈ l, a ≤ x

/-! ### `MergeSortedTryStreams`: instantiation for `Result` items -/

/-- An item of a `Stream<Item = Result<E, O>>` source (in the Rust
signature `E` is the success type and `O` the error type). -/
inductive TryItem (ι ε : Type) where
  | ok (v : ι)
  | err (e : ε)
  deriving Repr, DecidableEq

/-- The comparison closure of `MergeSortedTryStreams::poll_next`:
`Ok` values compare by `Ord`, an `Ok` is less than any `Err`, and two
`Err`s are equal. -/
def tryCmp {ι ε : Type} [LinearOrder ι] :
    TryItem ι ε → TryItem ι ε → Ordering
  | .ok v1, .ok v2 => compare v1 v2
  | .ok _, .err _ => .lt
  | .err _, .ok _ => .gt
  | .err _, .err _ => .eq

/-- Strictly-less for `min_by` in the try-variant. -/
def tryLt {ι ε : Type} [LinearOrder ι] : TryItem ι ε → TryItem ι ε → Bool :=
  fun x y => tryCmp x y == Ordering.lt

/-- `collect(MergeSortedTryStreams::new(inputs))`. -/
def tryCollectMerge {ι ε : Type} [LinearOrder ι]
    (inputs : List (List (TryItem ι ε))) : List (TryItem ι ε) :=
  mergeRunBy tryLt (inputs.map (fun l => (l, StreamState.waiting)))

/-- The input of the repository test `test_merge_sorted_trystreams_intermediate`:
the first source errors mid-stream and then has two more values. -/
def tryTestInput : List (List (TryItem Nat Unit)) :=
  [[.ok 7, .err (), .ok 14, .ok 16], [.ok 9], [.ok 7, .ok 8], [.ok 1, .ok 12]]

/-! ## Bucket index (`crates/repository/src/lib.rs`)

A `TimeBucket` wraps a `chrono::NaiveDate`; the claims about it involve
only `previous()` (subtract 7 days) and date comparison, so a date is
modelled as its day number (an `Int`).  Day 0 stands for the default
"epoch" bucket 2023-01-02. -/

abbrev TimeBucket := Int

/-- `TimeBucket::previous`: `self.0 - Duration::days(7)`. -/
def TimeBucket.previous (b : TimeBucket) : TimeBucket := b - 7

/-- The closure inside `iter_past_to`'s `from_fn`: while `self.0 > end.0`
yield the current bucket and step to `previous()`. Returns the yielded
item and the next closure state. -/
def iterPastToNext (e : TimeBucket) (b : TimeBucket) :
    Option (TimeBucket × TimeBucket) :=
  if e < b then some (b, TimeBucket.previous b) else none

/-- The closure inside `iter_forward_to`'s `from_fn`: while
`self.0 < end.0` yield the current bucket and step — to `previous()`,
exactly as written in the source. -/
def iterForwardToNext (e : TimeBucket) (b : TimeBucket) :
    Option (TimeBucket × TimeBucket) :=
  if b < e then some (b, TimeBucket.previous b) else none

/-- The list of buckets produced by `iter_past_to(end)`; this definition
is total, which is the termination half of the claim for the past-walk
direction. -/
def iterPastToList (b e : TimeBucket) : List TimeBucket :=
  if h : e < b then b :: iterPastToList (TimeBucket.previous b) e else []
termination_by (b - e).toNat
decreasing_by
  have h3 : TimeBucket.previous b = b - 7 := rfl
  rw [h3]
  refine (Int.toNat_lt_toNat (sub_pos.mpr h)).mpr ?_
  linarith

/-- The closure state of the `iter_forward_to` iterator after `n` calls
that produced an item (the state is unchanged by a call that produces
none). -/
def iterForwardToState (e : TimeBucket) (b : TimeBucket) : Nat → TimeBucket
  | 0 => b
  | n + 1 =>
    match iterForwardToNext e (iterForwardToState e b n) with
    | some p => p.2
    | none => iterForwardToState e b n

/-! ## Users and friendship rows (`crates/repository/src/users.rs`)

A `UserId` wraps a `Uuid`; only equality matters for these claims, so it
is modelled as a `Nat`.  The `friendships` table is the list of its
`(user_id, friend_id)` rows. -/

abbrev UserId := Nat

abbrev FriendRow := UserId × UserId

abbrev FriendTable := List FriendRow

/-- `InsertFriendshipRequest::execute`: the SQL statement is
`INSERT INTO friendships (user_id, friend_id) VALUES ($1, $2)` with
`$1 = user_a`, `$2 = user_b` — a single directed row. -/
def insertFriendship (a b : UserId) (t : FriendTable) : FriendTable :=
  t ++ [(a, b)]

/-- `RemoveFriendshipRequest::execute`: `DELETE FROM friendships WHERE
(user_id = $1 AND friend_id = $2) OR (user_id = $2 AND friend_id = $1)`
— both directed rows go. -/
def removeFriendship (a b : UserId) (t : FriendTable) : FriendTable :=
  t.filter (fun r => !((r.1 == a && r.2 == b) || (r.1 == b && r.2 == a)))

/-- `GetFriendsOfUserRequest::stream`: `SELECT friend_id FROM
friendships WHERE user_id = $1 OR friend_id = $1`, each record mapped to
its `friend_id` column. -/
def getFriendsOfUser (u : UserId) (t : FriendTable) : List UserId :=
  (t.filter (fun r => r.1 == u || r.2 == u)).map (fun r => r.2)

/-! ## MessageId (`crates/models/src/messages.rs`)

A `Uuid` is a 128-bit value; its `Display` is the 36-character
hyphenated lowercase-hex form, modelled concretely below.  Rust strings
are modelled as `List Char` (the inputs in question are ASCII, so bytes
and chars coincide). -/

abbrev Uuid := Nat

/-- Lowercase hex digits of `n` (most significant first, via the
standard library's base-16 digits; `0` renders as `"0"`). -/
def hexDigits (n : Nat) : List Char :=
  Nat.toDigits 16 n

/-- Zero-pad hex digits on the left to `width` characters. -/
def hexPad (width : Nat) (n : Nat) : List Char :=
  List.replicate (width - (hexDigits n).length) '0' ++ hexDigits n

/-- The `uuid` crate's `Display`: 32 lowercase hex digits of the
128-bit value, hyphenated 8-4-4-4-12. -/
def uuidToChars (u : Uuid) : List Char :=
  let h := hexPad 32 u
  h.take 8 ++ '-' :: (h.drop 8).take 4 ++ '-' :: (h.drop 12).take 4 ++
    '-' :: (h.drop 16).take 4 ++ '-' :: h.drop 20

/-- Rust's `{:#016x}` format: the `#` alternate flag writes the `0x`
marker, the `0` flag zero-fills after it, and the total width 16 counts
the marker, so at most 14 hex digits are zero-padded. -/
def rustHexAlt16 (n : Nat) : List Char :=
  '0' :: 'x' :: (List.replicate (16 - (2 + (hexDigits n).length)) '0' ++
    hexDigits n)

structure MessageId where
  user_id : Uuid
  timestamp : Nat
  deriving Repr, DecidableEq

/-- `Display for MessageId`: `write!(f, "{}x{:#016x}", self.user_id,
self.timestamp)`. -/
def MessageId.display (id : MessageId) : List Char :=
  uuidToChars id.user_id ++ 'x' :: rustHexAlt16 id.timestamp

/-- The spec's round-trip example: author
`11234567-1234-5678-1234-567812345678`, timestamp `0x64371AB8` (also the
example in the doc comment above the Rust `MessageId`). -/
def exampleMessageId : MessageId :=
  ⟨0x11234567123456781234567812345678, 0x64371AB8⟩

deriving instance DecidableEq for Except

/-- Rust slice indexing `&bytes[a..b]`: `none` models the
index-out-of-range panic. -/
def rustSlice {γ : Type} (s : List γ) (a b : Nat) : Option (List γ) :=
  if a ≤ b ∧ b ≤ s.length then some ((s.drop a).take (b - a)) else none

/-- `str::is_ascii`. -/
def allAscii (s : List Char) : Bool :=
  s.all (fun c => c.toNat < 128)

/-- One hex digit for `u64::from_str_radix(-, 16)`. -/
def hexVal (c : Char) : Option Nat :=
  if 48 ≤ c.toNat ∧ c.toNat ≤ 57 then some (c.toNat - 48)
  else if 97 ≤ c.toNat ∧ c.toNat ≤ 102 then some (c.toNat - 87)
  else if 65 ≤ c.toNat ∧ c.toNat ≤ 70 then some (c.toNat - 55)
  else none

/-- `u64::from_str_radix(s, 16)` on digit characters (`none` is the
error case; the empty string is an error). -/
def parseHex (s : List Char) : Option Nat :=
  match s with
  | [] => none
  | _ =>
    s.foldl (fun acc c => acc.bind (fun n => (hexVal c).map (fun d =>
      n * 16 + d))) (some 0)

/-- `FromStr for MessageId`.  The outer `Option` layer: `none` is a
panic, `some` is the function's `Result` (`Except Unit`, the error
messages do not matter to the claims).  The uuid parser of the `uuid`
crate is kept abstract as the `uuidParse` parameter: the claims hold
whatever it does.  Faithful to the source: the length/ASCII/separator
check, then `Uuid::from_str(&bytes[0..36])`, then
`u64::from_str_radix(&bytes[37..63], 16)` — note the upper bound `63`
on a 53-byte string, as written in the source. -/
def MessageId.fromStr (uuidParse : List Char → Except Unit Uuid)
    (s : List Char) : Option (Except Unit MessageId) :=
  if s.length = 36 + 1 + 16 ∧ allAscii s ∧ s.get? 36 = some 'x' then
    match rustSlice s 0 36 with
    | none => none
    | some uuidStr =>
      match uuidParse uuidStr with
      | .error _ => some (.error ())
      | .ok u =>
        match rustSlice s 37 63 with
        | none => none
        | some tsStr =>
          match parseHex tsStr with
          | none => some (.error ())
          | some ts => some (.ok ⟨u, ts⟩)
  else some (.error ())

/-! ## Real-time timeline reducer
(`crates/services/src/users.rs`, `UserIdServices::real_time_timeline`;
the `UserRef::real_time_timeline` in `crates/models/src/users.rs` is the
same state machine)

The `select`-interleaved input stream of the `scan` is modelled as the
list of its items in arrival order: `Either::Left` carries a friend
update (or an upstream error), `Either::Right` a bus message (or an
error).  The `HashSet<UserId>` accumulator is a `Finset UserId`. -/

structure Message where
  id : MessageId
  user_id : Uuid
  date : Int
  content : String
  deriving Repr, DecidableEq

inductive FriendUpdate where
  | new (friend : UserId)
  | removed (friend : UserId)
  deriving Repr, DecidableEq

inductive RTItem (ε : Type) where
  | left (x : Except ε FriendUpdate)
  | right (x : Except ε Message)

/-- The body of the `scan` closure: mutate the friend set on a friend
update (emitting nothing), filter a message by membership of its author,
pass errors through. -/
def rtStep {ε : Type} (S : Finset UserId) :
    RTItem ε → Finset UserId × Option (Except ε Message)
  | .left (.ok (.new f)) => (insert f S, none)
  | .left (.ok (.removed f)) => (S.erase f, none)
  | .left (.error e) => (S, some (.error e))
  | .right (.ok m) =>
    (S, if m.user_id ∈ S then some (.ok m) else none)
  | .right (.error e) => (S, some (.error e))

/-- `scan` followed by `filter_map(identity)`: the emitted items of the
real-time timeline, from initial friend set `S`. -/
def rtRun {ε : Type} (S : Finset UserId) :
    List (RTItem ε) → List (Except ε Message)
  | [] => []
  | it :: rest =>
    match rtStep S it with
    | (S', some o) => o :: rtRun S' rest
    | (S', none) => rtRun S' rest

/-- The friend set after processing a prefix of the input (`rtStep`
leaves the set unchanged on message and error items). -/
def rtState {ε : Type} (S : Finset UserId) (items : List (RTItem ε)) :
    Finset UserId :=
  items.foldl (fun acc it => (rtStep acc it).1) S

/-- Concrete run for the witness: subscriber with initial friend `1`;
bus sequence `msg(1)`, `friendship.new(u,2)`, `msg(2)`,
`friendship.removed(u,1)`, `msg(1)` (spec scenario "Real-time
filtering"). -/
def rtWitnessItems : List (RTItem Unit) :=
  [.left (.ok (.new 1)),
   .right (.ok ⟨⟨1, 10⟩, 1, 10, "hi"⟩),
   .left (.ok (.new 2)),
   .right (.ok ⟨⟨2, 20⟩, 2, 20, "yo"⟩),
   .left (.ok (.removed 1)),
   .right (.ok ⟨⟨1, 30⟩, 1, 30, "bye"⟩)]

/-! ## Write-path RPC handlers (`src/server/api/mod.rs`)

Each write path parses its ids, then hands
`futures::join!(realtime_publish, persistence)` to the task manager and
awaits the result; the `join!` output is destructured as
`(_rt, persistance)` and only `persistance` is returned.  The outcomes
of the two halves are oracle parameters of the model. -/

structure FriendResponse where
  success : Bool
  deriving Repr, DecidableEq

structure MessageStatusResponse where
  success : Bool
  deriving Repr, DecidableEq

inductive Status where
  | invalidArgument (msg : String)
  | internal (msg : String)
  deriving Repr, DecidableEq

/-- The spawned task body common to the three write paths:
`let (_rt, persistance) = futures::join!(realtime, persistence);
persistance`. -/
def writeTaskResult {β : Type} (rt : Except String Unit)
    (pers : Except Status β) : Except Status β :=
  let joined := (rt, pers)
  joined.2

/-- `ServerState::add_friend` after `request.into_inner()`: parse both
ids (`InvalidArgument` on failure), run the write task, `?` on its
result, answer `{ success: true }`. -/
def addFriendHandler (parseUser parseFriend : Except String UserId)
    (rt : Except String Unit) (pers : Except Status Unit) :
    Except Status FriendResponse :=
  match parseUser with
  | .error e => .error (.invalidArgument e)
  | .ok _ =>
    match parseFriend with
    | .error e => .error (.invalidArgument e)
    | .ok _ =>
      match writeTaskResult rt pers with
      | .error s => .error s
      | .ok _ => .ok ⟨true⟩

/-- `ServerState::remove_friend`: same shape as `add_friend` with the
remove requests. -/
def removeFriendHandler (parseUser parseFriend : Except String UserId)
    (rt : Except String Unit) (pers : Except Status Unit) :
    Except Status FriendResponse :=
  match parseUser with
  | .error e => .error (.invalidArgument e)
  | .ok _ =>
    match parseFriend with
    | .error e => .error (.invalidArgument e)
    | .ok _ =>
      match writeTaskResult rt pers with
      | .error s => .error s
      | .ok _ => .ok ⟨true⟩

/-- `ServerState::post_message`: parse the author id, build the message,
run the write task, `?`, answer `{ success: true }`. -/
def postMessageHandler (parseUser : Except String UserId)
    (rt : Except String Unit) (pers : Except Status Unit) :
    Except Status MessageStatusResponse :=
  match parseUser with
  | .error e => .error (.invalidArgument e)
  | .ok _ =>
    match writeTaskResult rt pers with
    | .error s => .error s
    | .ok _ => .ok ⟨true⟩

/-- Comparison target taken from the claim's words: the result of the
persistence half alone, lifted to the RPC response. -/
def persistenceOnly {β γ : Type} (okVal : γ) (pers : Except Status β) :
    Except Status γ :=
  match pers with
  | .ok _ => .ok okVal
  | .error s => .error s

/-! ## Task manager (`crates/task_manager/src/lib.rs`)

Modelled as a transition system.  A task is a `Nat` id whose pure result
is given by the environment `res`.  `spawn` pushes the wrapped task into
the unbounded queue (`queued`) before returning the one-shot receiver;
the dispatcher loop moves a queued task onto the runtime (`spawned`);
the runtime runs a spawned task to completion, recording `(t, res t)` in
`done` and, mirroring `let _ = sender.send(r)`, delivering on the
one-shot only if its receiver is still alive — the send result is
discarded either way.  Dropping a `Completion`/cancelling the caller is
the `dropRecv` step, which only flips the `alive` flag; no transition
removes a task without running it. -/

structure TMState where
  queued : List Nat
  spawned : List Nat
  done : List (Nat × Nat)
  alive : Nat → Bool
  delivered : List (Nat × Nat)

inductive TMStep (res : Nat → Nat) : TMState → TMState → Prop where
  | dispatch (s : TMState) (t : Nat) (rest : List Nat)
      (hq : s.queued = t :: rest) :
      TMStep res s ⟨rest, s.spawned ++ [t], s.done, s.alive, s.delivered⟩
  | run (s : TMState) (t : Nat) (hmem : t ∈ s.spawned) :
      TMStep res s ⟨s.queued, s.spawned.erase t, (t, res t) :: s.done,
        s.alive,
        if s.alive t then (t, res t) :: s.delivered else s.delivered⟩
  | dropRecv (s : TMState) (t : Nat) (halive : s.alive t = true) :
      TMStep res s ⟨s.queued, s.spawned, s.done,
        fun x => if x = t then false else s.alive x, s.delivered⟩

/-- Concrete environment and trace for the witness: task `5` is queued,
its receiver is dropped, then it is dispatched and run. -/
def tmRes : Nat → Nat := fun n => n + 1

def tmS0 : TMState := ⟨[5], [], [], fun _ => true, []⟩

def tmS1 : TMState :=
  ⟨[5], [], [], fun x => if x = 5 then false else tmS0.alive x, []⟩

def tmS2 : TMState := ⟨[], [] ++ [5], [], tmS1.alive, []⟩

def tmS3 : TMState :=
  ⟨[], ([] ++ [5] : List Nat).erase 5, [(5, tmRes 5)], tmS2.alive,
    if tmS2.alive 5 then [(5, tmRes 5)] else []⟩

/-! ## Lemmas and claim theorems -/

theorem srcItems_pollSource {α : Type} (s : MSource α) :
    srcItems (pollSource s) = srcItems s := by
  rcases s with ⟨l, st⟩
  cases st <;> cases l <;> simp [pollSource, srcItems]

theorem contents_cons {α : Type} (s : MSource α) (rest : List (MSource α)) :
    contents (s :: rest) = srcItems s ++ contents rest := by
  simp [contents]

theorem contents_map_pollSource {α : Type} (ss : List (MSource α)) :
    contents (ss.map pollSource) = contents ss := by
  induction ss with
  | nil => rfl
  | cons s rest ih =>
    rw [List.map_cons, contents_cons, contents_cons, srcItems_pollSource, ih]

/-- Pull an element known to sit (as a permutation) at the head of the
right part of an append across the append. -/
theorem perm_pull {α : Type} (l : List α) (a : α) (r r' : List α)
    (h : List.Perm r (a :: r')) : List.Perm (l ++ r) (a :: (l ++ r')) :=
  (List.Perm.append_left l h).trans List.perm_middle

/-- Successful `takeMinBy` replaces exactly one `Yielded` slot (the one
holding the emitted value) by a `Waiting` slot and keeps everything
else in place. -/
theorem takeMinBy_shape {α : Type} (lt : α → α → Bool) (ss : List (MSource α))
    (a : α) (ss' : List (MSource α)) (h : takeMinBy lt ss = some (a, ss')) :
    ∃ pre l post, ss = pre ++ (l, StreamState.yielded a) :: post ∧
      ss' = pre ++ (l, StreamState.waiting) :: post := by
  induction ss generalizing a ss' with
  | nil => simp [takeMinBy] at h
  | cons s rest ih =>
    rcases s with ⟨l, st⟩
    cases st with
    | yielded b =>
      cases hrec : takeMinBy lt rest with
      | none =>
        simp only [takeMinBy, hrec, Option.some.injEq, Prod.mk.injEq] at h
        obtain ⟨rfl, rfl⟩ := h
        exact ⟨[], l, rest, rfl, rfl⟩
      | some p =>
        rcases p with ⟨c, rest'⟩
        cases hlt : lt c b with
        | true =>
          simp only [takeMinBy, hrec, hlt, if_true, Option.some.injEq,
            Prod.mk.injEq] at h
          obtain ⟨rfl, rfl⟩ := h
          obtain ⟨pre, l', post, h1, h2⟩ := ih _ _ hrec
          exact ⟨(l, StreamState.yielded b) :: pre, l', post,
            by rw [h1]; rfl, by rw [h2]; rfl⟩
        | false =>
          simp only [takeMinBy, hrec, hlt, if_false, Option.some.injEq,
            Prod.mk.injEq] at h
          obtain ⟨rfl, rfl⟩ := h
          exact ⟨[], l, rest, rfl, rfl⟩
    | waiting =>
      cases hrec : takeMinBy lt rest with
      | none => simp [takeMinBy, hrec] at h
      | some p =>
        rcases p with ⟨c, rest'⟩
        simp only [takeMinBy, hrec, Option.map_some, Option.some.injEq,
          Prod.mk.injEq] at h
        obtain ⟨rfl, rfl⟩ := h
        obtain ⟨pre, l', post, h1, h2⟩ := ih _ _ hrec
        exact ⟨(l, StreamState.waiting) :: pre, l', post,
          by rw [h1]; rfl, by rw [h2]; rfl⟩
    | finished =>
      cases hrec : takeMinBy lt rest with
      | none => simp [takeMinBy, hrec] at h
      | some p =>
        rcases p with ⟨c, rest'⟩
        simp only [takeMinBy, hrec, Option.map_some, Option.some.injEq,
          Prod.mk.injEq] at h
        obtain ⟨rfl, rfl⟩ := h
        obtain ⟨pre, l', post, h1, h2⟩ := ih _ _ hrec
        exact ⟨(l, StreamState.finished) :: pre, l', post,
          by rw [h1]; rfl, by rw [h2]; rfl⟩

theorem takeMinBy_perm {α : Type} (lt : α → α → Bool) (ss : List (MSource α))
    (a : α) (ss' : List (MSource α)) (h : takeMinBy lt ss = some (a, ss')) :
    List.Perm (contents ss) (a :: contents ss') := by
  obtain ⟨pre, l, post, h1, h2⟩ := takeMinBy_shape lt ss a ss' h
  subst h1; subst h2
  have e1 : contents (pre ++ (l, StreamState.yielded a) :: post) =
      contents pre ++ ((a :: l) ++ contents post) := by
    simp [contents, srcItems]
  have e2 : contents (pre ++ (l, StreamState.waiting) :: post) =
      contents pre ++ (l ++ contents post) := by
    simp [contents, srcItems]
  rw [e1, e2]
  have : List.Perm ((a :: l) ++ contents post) (a :: (l ++ contents post)) := by
    simp
  exact perm_pull _ _ _ _ this

theorem takeMinBy_measure {α : Type} (lt : α → α → Bool)
    (ss : List (MSource α)) (a : α) (ss' : List (MSource α))
    (h : takeMinBy lt ss = some (a, ss')) :
    msMeasure ss' < msMeasure ss := by
  have hp := (takeMinBy_perm lt ss a ss' h).length_eq
  simp only [msMeasure, List.length_cons] at *
  omega

theorem mergeRunFuel_none {α : Type} (lt : α → α → Bool) (fuel : Nat)
    (ss : List (MSource α)) (h : takeMinBy lt (ss.map pollSource) = none) :
    mergeRunFuel lt fuel ss = [] := by
  cases fuel with
  | zero => rfl
  | succ n => simp [mergeRunFuel, h]

theorem msMeasure_map_pollSource {α : Type} (ss : List (MSource α)) :
    msMeasure (ss.map pollSource) = msMeasure ss := by
  simp only [msMeasure, contents_map_pollSource]

theorem mergeRunFuel_eq {α : Type} (lt : α → α → Bool) (f1 : Nat) :
    ∀ f2 (ss : List (MSource α)), msMeasure ss ≤ f1 → msMeasure ss ≤ f2 →
      mergeRunFuel lt f1 ss = mergeRunFuel lt f2 ss := by
  induction f1 with
  | zero =>
    intro f2 ss h1 h2
    cases h : takeMinBy lt (ss.map pollSource) with
    | none => rw [mergeRunFuel_none lt 0 ss h, mergeRunFuel_none lt f2 ss h]
    | some p =>
      exfalso
      rcases p with ⟨a, ss''⟩
      have := takeMinBy_measure lt _ a ss'' h
      have := msMeasure_map_pollSource ss
      omega
  | succ f1 ih =>
    intro f2 ss h1 h2
    cases h : takeMinBy lt (ss.map pollSource) with
    | none => rw [mergeRunFuel_none lt _ ss h, mergeRunFuel_none lt f2 ss h]
    | some p =>
      rcases p with ⟨a, ss''⟩
      have hms := takeMinBy_measure lt _ a ss'' h
      have hpoll := msMeasure_map_pollSource ss
      cases f2 with
      | zero => omega
      | succ f2 =>
        simp only [mergeRunFuel, h]
        rw [ih f2 ss'' (by omega) (by omega)]

theorem mergeRunBy_eq_nil {α : Type} (lt : α → α → Bool)
    (ss : List (MSource α)) (h : takeMinBy lt (ss.map pollSource) = none) :
    mergeRunBy lt ss = [] :=
  mergeRunFuel_none lt _ ss h

theorem mergeRunBy_eq_cons {α : Type} (lt : α → α → Bool)
    (ss : List (MSource α)) (a : α) (ss'' : List (MSource α))
    (h : takeMinBy lt (ss.map pollSource) = some (a, ss'')) :
    mergeRunBy lt ss = a :: mergeRunBy lt ss'' := by
  have hms := takeMinBy_measure lt _ a ss'' h
  have hpoll := msMeasure_map_pollSource ss
  unfold mergeRunBy
  cases hn : msMeasure ss with
  | zero => omega
  | succ n =>
    simp only [mergeRunFuel, h]
    rw [mergeRunFuel_eq lt n (msMeasure ss'') ss'' (by omega) (by omega)]

theorem finOK_pollSource {α : Type} (s : MSource α)
    (h : finOK s) : finOK (pollSource s) := by
  rcases s with ⟨l, st⟩
  cases st with
  | waiting => cases l <;> simp [pollSource, finOK]
  | finished => exact h
  | yielded a => exact h

theorem pollSource_not_waiting {α : Type} (s : MSource α) :
    (pollSource s).2 ≠ StreamState.waiting := by
  rcases s with ⟨l, st⟩
  cases st <;> cases l <;> simp [pollSource]

theorem takeMinBy_preserves_finOK {α : Type} (lt : α → α → Bool)
    (ss : List (MSource α)) (a : α) (ss' : List (MSource α))
    (h : takeMinBy lt ss = some (a, ss')) (hok : ∀ s ∈ ss, finOK s) :
    ∀ s ∈ ss', finOK s := by
  obtain ⟨pre, l, post, h1, h2⟩ := takeMinBy_shape lt ss a ss' h
  subst h1; subst h2
  intro s hs
  rcases List.mem_append.1 hs with hpre | hmid
  · exact hok s (List.mem_append.2 (Or.inl hpre))
  · rcases List.mem_cons.1 hmid with rfl | hpost
    · intro hfin; exact absurd hfin (by simp)
    · exact hok s (List.mem_append.2 (Or.inr (List.mem_cons.2 (Or.inr hpost))))

/-- When no source is `Yielded` and no source is `Waiting`, every source
is finished and (under `finOK`) the state holds no items at all. -/
theorem takeMinBy_none_contents {α : Type} (lt : α → α → Bool)
    (ss : List (MSource α)) (h : takeMinBy lt ss = none)
    (hw : ∀ s ∈ ss, s.2 ≠ StreamState.waiting)
    (hok : ∀ s ∈ ss, finOK s) : contents ss = [] := by
  induction ss with
  | nil => rfl
  | cons s rest ih =>
    rcases s with ⟨l, st⟩
    cases st with
    | yielded b =>
      exfalso
      cases hrec : takeMinBy lt rest with
      | none => simp [takeMinBy, hrec] at h
      | some p =>
        rcases p with ⟨c, rest'⟩
        cases hlt : lt c b with
        | true => simp [takeMinBy, hrec, hlt] at h
        | false => simp [takeMinBy, hrec, hlt] at h
    | waiting =>
      exact absurd rfl (hw (l, StreamState.waiting) (List.mem_cons_self _ _))
    | finished =>
      have hrest : takeMinBy lt rest = none := by
        cases hrec : takeMinBy lt rest with
        | none => rfl
        | some p => simp [takeMinBy, hrec] at h
      have hl : l = [] :=
        hok (l, StreamState.finished) (List.mem_cons_self _ _) rfl
      rw [contents_cons]
      rw [ih hrest (fun s hs => hw s (List.mem_cons.2 (Or.inr hs)))
        (fun s hs => hok s (List.mem_cons.2 (Or.inr hs)))]
      simp [srcItems, hl]

/-- The merged stream is a permutation of everything the sources hold:
no item is lost or duplicated, whatever the comparison is. -/
theorem mergeRunBy_perm {α : Type} (lt : α → α → Bool) (ss : List (MSource α))
    (hok : ∀ s ∈ ss, finOK s) :
    List.Perm (mergeRunBy lt ss) (contents ss) := by
  generalize hn : msMeasure ss = n
  induction n using Nat.strong_induction_on generalizing ss with
  | _ n ih =>
    subst hn
    have hok' : ∀ s ∈ ss.map pollSource, finOK s := by
      intro s hs
      obtain ⟨t, ht, rfl⟩ := List.mem_map.1 hs
      exact finOK_pollSource t (hok t ht)
    cases hm : takeMinBy lt (ss.map pollSource) with
    | none =>
      rw [mergeRunBy_eq_nil lt ss hm]
      have h0 : contents (ss.map pollSource) = [] :=
        takeMinBy_none_contents lt _ hm
          (fun s hs => by
            obtain ⟨t, ht, rfl⟩ := List.mem_map.1 hs
            exact pollSource_not_waiting t) hok'
      rw [contents_map_pollSource] at h0
      rw [h0]
    | some p =>
      rcases p with ⟨a, ss''⟩
      rw [mergeRunBy_eq_cons lt ss a ss'' hm]
      have hok'' : ∀ s ∈ ss'', finOK s :=
        takeMinBy_preserves_finOK lt _ a ss'' hm hok'
      have hmeas : msMeasure ss'' < msMeasure ss := by
        have := takeMinBy_measure lt _ a ss'' hm
        simpa [msMeasure, contents_map_pollSource] using this
      have hperm := takeMinBy_perm lt _ a ss'' hm
      rw [contents_map_pollSource] at hperm
      exact ((ih _ hmeas ss'' hok'' rfl).cons a).trans hperm.symm

theorem srcOK_finOK {α : Type} [LinearOrder α] (s : MSource α)
    (h : srcOK s) : finOK s := by
  rcases s with ⟨l, st⟩
  cases st <;> simp_all [srcOK, finOK]

theorem srcOK_pollSource {α : Type} [LinearOrder α] (s : MSource α)
    (h : srcOK s) : srcOK (pollSource s) := by
  rcases s with ⟨l, st⟩
  cases st with
  | waiting =>
    cases l with
    | nil => simp [pollSource, srcOK]
    | cons a t =>
      simp only [pollSource, srcOK] at h ⊢
      rw [List.sorted_cons] at h
      exact ⟨h.2, h.1⟩
  | finished => exact h
  | yielded a => exact h

theorem takeMinBy_preserves_srcOK {α : Type} [LinearOrder α]
    (ss : List (MSource α)) (a : α) (ss' : List (MSource α))
    (h : takeMinBy ordLt ss = some (a, ss')) (hok : ∀ s ∈ ss, srcOK s) :
    ∀ s ∈ ss', srcOK s := by
  obtain ⟨pre, l, post, h1, h2⟩ := takeMinBy_shape ordLt ss a ss' h
  subst h1; subst h2
  intro s hs
  rcases List.mem_append.1 hs with hpre | hmid
  · exact hok s (List.mem_append.2 (Or.inl hpre))
  · rcases List.mem_cons.1 hmid with rfl | hpost
    · have := hok (l, StreamState.yielded a)
        (List.mem_append.2 (Or.inr (List.mem_cons_self _ _)))
      exact this.1
    · exact hok s (List.mem_append.2 (Or.inr (List.mem_cons.2 (Or.inr hpost))))

/-- The value emitted by `takeMinBy ordLt` is a lower bound of
everything still owned by the resulting state (this is what `min_by`
buys us). -/
theorem takeMin_min {α : Type} [LinearOrder α] (ss : List (MSource α))
    (a : α) (ss' : List (MSource α)) (h : takeMinBy ordLt ss = some (a, ss'))
    (hw : ∀ s ∈ ss, s.2 ≠ StreamState.waiting)
    (hok : ∀ s ∈ ss, srcOK s) : ∀ b ∈ contents ss', a ≤ b := by
  induction ss generalizing a ss' with
  | nil => simp [takeMinBy] at h
  | cons s rest ih =>
    rcases s with ⟨l, st⟩
    have hwrest : ∀ s ∈ rest, s.2 ≠ StreamState.waiting :=
      fun s hs => hw s (List.mem_cons.2 (Or.inr hs))
    have hokrest : ∀ s ∈ rest, srcOK s :=
      fun s hs => hok s (List.mem_cons.2 (Or.inr hs))
    cases st with
    | yielded b =>
      have hhd := hok (l, StreamState.yielded b) (List.mem_cons_self _ _)
      cases hrec : takeMinBy ordLt rest with
      | none =>
        simp only [takeMinBy, hrec, Option.some.injEq, Prod.mk.injEq] at h
        obtain ⟨rfl, rfl⟩ := h
        have hrest0 : contents rest = [] :=
          takeMinBy_none_contents ordLt rest hrec hwrest
            (fun s hs => srcOK_finOK s (hokrest s hs))
        intro x hx
        rw [contents_cons, hrest0, List.append_nil] at hx
        exact hhd.2 x hx
      | some p =>
        rcases p with ⟨c, rest'⟩
        by_cases hlt : c < b
        · have hltb : ordLt c b = true := by simp [ordLt, hlt]
          simp only [takeMinBy, hrec, hltb, if_true, Option.some.injEq,
            Prod.mk.injEq] at h
          obtain ⟨rfl, rfl⟩ := h
          intro x hx
          rw [contents_cons] at hx
          rcases List.mem_append.1 hx with hx | hx
          · rcases List.mem_cons.1 (by simpa [srcItems] using hx) with rfl | hx
            · exact le_of_lt hlt
            · exact le_trans (le_of_lt hlt) (hhd.2 x hx)
          · exact ih _ _ hrec hwrest hokrest x hx
        · have hltb : ordLt c b = false := by simp [ordLt, hlt]
          simp only [takeMinBy, hrec, hltb, if_false, Option.some.injEq,
            Prod.mk.injEq] at h
          obtain ⟨rfl, rfl⟩ := h
          have hac := le_of_not_lt hlt
          intro x hx
          rw [contents_cons] at hx
          rcases List.mem_append.1 hx with hx | hx
          · exact hhd.2 x (by simpa [srcItems] using hx)
          · have hperm := takeMinBy_perm ordLt rest c rest' hrec
            rcases List.mem_cons.1 (hperm.mem_iff.1 hx) with rfl | hx'
            · exact hac
            · exact le_trans hac (ih _ _ hrec hwrest hokrest x hx')
    | waiting =>
      exact absurd rfl (hw (l, StreamState.waiting) (List.mem_cons_self _ _))
    | finished =>
      have hl : l = [] := by
        have := hok (l, StreamState.finished) (List.mem_cons_self _ _)
        simpa [srcOK] using this
      cases hrec : takeMinBy ordLt rest with
      | none => simp [takeMinBy, hrec] at h
      | some p =>
        rcases p with ⟨c, rest'⟩
        simp only [takeMinBy, hrec, Option.map_some, Option.some.injEq,
          Prod.mk.injEq] at h
        obtain ⟨rfl, rfl⟩ := h
        intro x hx
        rw [contents_cons] at hx
        rcases List.mem_append.1 hx with hx | hx
        · simp [srcItems, hl] at hx
        · exact ih _ _ hrec hwrest hokrest x hx

/-- The merged stream is sorted when every source satisfies the
`srcOK` invariant (in particular when every input stream is sorted). -/
theorem mergeRun_sorted {α : Type} [LinearOrder α] (ss : List (MSource α))
    (hok : ∀ s ∈ ss, srcOK s) :
    (mergeRunBy ordLt ss).Sorted (· ≤ ·) := by
  generalize hn : msMeasure ss = n
  induction n using Nat.strong_induction_on generalizing ss with
  | _ n ih =>
    subst hn
    have hok' : ∀ s ∈ ss.map pollSource, srcOK s := by
      intro s hs
      obtain ⟨t, ht, rfl⟩ := List.mem_map.1 hs
      exact srcOK_pollSource t (hok t ht)
    have hw' : ∀ s ∈ ss.map pollSource, s.2 ≠ StreamState.waiting := by
      intro s hs
      obtain ⟨t, ht, rfl⟩ := List.mem_map.1 hs
      exact pollSource_not_waiting t
    cases hm : takeMinBy ordLt (ss.map pollSource) with
    | none =>
      rw [mergeRunBy_eq_nil _ ss hm]
      exact List.sorted_nil
    | some p =>
      rcases p with ⟨a, ss''⟩
      rw [mergeRunBy_eq_cons _ ss a ss'' hm]
      have hok'' : ∀ s ∈ ss'', srcOK s :=
        takeMinBy_preserves_srcOK _ a ss'' hm hok'
      have hmeas : msMeasure ss'' < msMeasure ss := by
        have := takeMinBy_measure ordLt _ a ss'' hm
        simpa [msMeasure, contents_map_pollSource] using this
      rw [List.sorted_cons]
      constructor
      · intro b hb
        have hmem : b ∈ contents ss'' :=
          (mergeRunBy_perm ordLt ss''
            (fun s hs => srcOK_finOK s (hok'' s hs))).mem_iff.1 hb
        exact takeMin_min _ a ss'' hm hw' hok' b hmem
      · exact ih _ hmeas ss'' hok'' rfl

theorem contents_initial {α : Type} (inputs : List (List α)) :
    contents (inputs.map (fun l => (l, StreamState.waiting))) = inputs.flatten := by
  induction inputs with
  | nil => rfl
  | cons l rest ih =>
    rw [List.map_cons, contents_cons, ih]
    rfl

/-- C2: for every finite collection of sorted input streams, collecting
`MergeSortedStreams` over them yields exactly the sorted merge of the
concatenation of all inputs. -/
theorem c2_merge_sorted_collect {α : Type} [LinearOrder α]
    (inputs : List (List α)) (hs : ∀ l ∈ inputs, l.Sorted (· ≤ ·)) :
    collectMerge inputs = List.insertionSort (· ≤ ·) inputs.flatten := by
  have hok : ∀ s ∈ inputs.map (fun l => (l, StreamState.waiting)), srcOK s := by
    intro s hmem
    obtain ⟨t, ht, rfl⟩ := List.mem_map.1 hmem
    simpa [srcOK] using hs t ht
  have hperm := mergeRunBy_perm ordLt
    (inputs.map (fun l => (l, StreamState.waiting)))
    (fun s hmem => srcOK_finOK s (hok s hmem))
  rw [contents_initial] at hperm
  exact List.eq_of_perm_of_sorted
    (hperm.trans (List.perm_insertionSort _ _).symm)
    (mergeRun_sorted _ hok) (List.sorted_insertionSort _ _)

/-- Witness for C2 at the repository's own test vector. -/
theorem c2_merge_sorted_collect_witness :
    (∀ l ∈ ([[7, 8, 14, 16], [9], [7, 8], [1, 12]] : List (List Nat)),
      l.Sorted (· ≤ ·)) ∧
    collectMerge ([[7, 8, 14, 16], [9], [7, 8], [1, 12]] : List (List Nat)) =
      List.insertionSort (· ≤ ·)
        ([[7, 8, 14, 16], [9], [7, 8], [1, 12]] : List (List Nat)).flatten :=
  ⟨by decide, c2_merge_sorted_collect _ (by decide)⟩

/-- C3 counterexample: on the repository's own test input the source
that yielded the `Err` continues to be polled after the error is
reported and contributes `ok 14` and `ok 16` — values present only in
that source, after its error — so the source is not treated as
drained. -/
theorem c3_err_source_counterexample :
    tryCollectMerge tryTestInput =
      [.ok 1, .ok 7, .ok 7, .ok 8, .ok 9, .ok 12, .err (), .ok 14, .ok 16] ∧
    TryItem.ok 14 ∈ tryCollectMerge tryTestInput := by
  constructor
  · decide
  · decide

/-- C3 amended: a source that yields `Err` merely has the error
buffered (compared greater than any `Ok`); once the error is emitted
the source transitions back to `Waiting` and is polled again, so every
item of every input — including items after an `Err` — appears in the
collected output, which is a permutation of the concatenated inputs. -/
theorem c3_err_source_continues {ι ε : Type} [LinearOrder ι]
    (inputs : List (List (TryItem ι ε))) :
    List.Perm (tryCollectMerge inputs) inputs.flatten := by
  have hok : ∀ s ∈ inputs.map (fun l => (l, StreamState.waiting)), finOK s := by
    intro s hmem
    obtain ⟨t, ht, rfl⟩ := List.mem_map.1 hmem
    intro hfin
    cases hfin
  have hperm := mergeRunBy_perm tryLt
    (inputs.map (fun l => (l, StreamState.waiting))) hok
  rw [contents_initial] at hperm
  exact hperm

/-- C6: both bucket iterators were claimed to terminate; the past walk
does (`iterPastToList` is total), but `iter_forward_to` steps with
`previous()` — away from its bound — so starting from the epoch bucket
2023-01-02 (day 0) towards 2023-01-09 (day 7) it yields an item at
every single call and never finishes. -/
theorem c6_iter_forward_never_finishes :
    ∀ n : Nat, (iterForwardToNext 7 (iterForwardToState 7 0 n)).isSome = true := by
  have hinv : ∀ m : Nat, iterForwardToState 7 0 m ≤ 0 := by
    intro m
    induction m with
    | zero => norm_num [iterForwardToState]
    | succ m ih =>
      have hlt : iterForwardToState 7 0 m < 7 :=
        lt_of_le_of_lt ih (by norm_num)
      have hstep : iterForwardToNext 7 (iterForwardToState 7 0 m) =
          some (iterForwardToState 7 0 m,
            TimeBucket.previous (iterForwardToState 7 0 m)) := by
        simp [iterForwardToNext, hlt]
      simp only [iterForwardToState, hstep]
      simp only [TimeBucket.previous]
      linarith
  intro n
  have hlt : iterForwardToState 7 0 n < 7 :=
    lt_of_le_of_lt (hinv n) (by norm_num)
  simp [iterForwardToNext, hlt]

/-- C7: inserting a friendship writes only the single directed row
`(a, b)`; the reverse row `(b, a)` is absent, so the two-row invariant
fails right after the very first insert (the SQL has one `INSERT` of
one row, despite the doc comment above it). -/
theorem c7_insert_writes_one_row :
    insertFriendship 0 1 [] = [(0, 1)] ∧
    ((insertFriendship 0 1 []).contains (1, 0)) = false := by
  exact ⟨rfl, rfl⟩

/-- C10: the friends stream includes every row in which `u` appears on
either side, but always projects the `friend_id` column; in particular
a row `(x, u)` contributes `u` itself rather than the counterparty
`x`. -/
theorem c10_friends_stream_projects_friend_id :
    ∀ (u : UserId) (t : FriendTable) (x y : UserId),
      ((x, y) ∈ t → (u = x ∨ u = y) → y ∈ getFriendsOfUser u t) ∧
      (x ≠ u → getFriendsOfUser u [(x, u)] = [u]) := by
  intro u t x y
  constructor
  · intro hmem hu
    refine List.mem_map.2 ⟨(x, y), List.mem_filter.2 ⟨hmem, ?_⟩, rfl⟩
    cases hu with
    | inl h => subst h; simp
    | inr h => subst h; simp
  · intro hxu
    simp [getFriendsOfUser]

/-- Witness for C10 on the single row `(1, 0)` read for user `0`. -/
theorem c10_friends_stream_witness :
    (0 ∈ getFriendsOfUser 0 [(1, 0)]) ∧
    getFriendsOfUser 0 [(1, 0)] = [0] :=
  ⟨(c10_friends_stream_projects_friend_id 0 [(1, 0)] 1 0).1 (by decide)
      (by decide),
    (c10_friends_stream_projects_friend_id 0 [(1, 0)] 1 0).2 (by decide)⟩

/-- C4: `MessageId::from_str` can never succeed.  For any input: either
the length/ASCII/separator check fails (an `Err`), or the embedded uuid
fails to parse (an `Err`), or — the input having exactly 53 bytes — the
timestamp slice `&bytes[37..63]` is out of range and the function
panics (`none`).  In particular it panics on the display form of the
spec's round-trip example, so the claimed round-trip never holds. -/
theorem c4_from_str_never_succeeds :
    (∀ (uuidParse : List Char → Except Unit Uuid) (s : List Char),
      MessageId.fromStr uuidParse s = none ∨
      MessageId.fromStr uuidParse s = some (Except.error ())) ∧
    MessageId.fromStr (fun _ => Except.ok 0)
      (MessageId.display exampleMessageId) = none := by
  constructor
  · intro up s
    unfold MessageId.fromStr
    by_cases hc : s.length = 36 + 1 + 16 ∧ allAscii s ∧ s.get? 36 = some 'x'
    · have h36 : rustSlice s 0 36 = some (s.take 36) := by
        simp [rustSlice, hc.1]
      have h63 : rustSlice s 37 63 = none := by
        simp [rustSlice, hc.1]
      rw [if_pos hc]
      cases hup : up (s.take 36) with
      | error e => right; simp [h36, hup]
      | ok u => left; simp [h36, hup, h63]
    · rw [if_neg hc]
      right; rfl
  · decide

/-- C5: the displayed form of the round-trip example is 53 ASCII bytes,
but it is `<uuid>x0x<14 hex digits>` — the `{:#016x}` format places the
`0x` marker inside the 16-character field — not the claimed
`<uuid>x<16 hex digits>` string. -/
theorem c5_display_has_0x_marker :
    MessageId.display exampleMessageId =
      "11234567-1234-5678-1234-567812345678x0x00000064371ab8".toList ∧
    (MessageId.display exampleMessageId).length = 53 ∧
    (MessageId.display exampleMessageId ==
      "11234567-1234-5678-1234-567812345678x0000000064371ab8".toList)
        = false := by
  refine ⟨by decide, by decide, by decide⟩

/-- Every successful emission of the reducer comes from a `Right(Ok m)`
input item whose author was in the friend set accumulated from the
items before it. -/
theorem rtRun_ok_mem_aux {ε : Type} :
    ∀ (items : List (RTItem ε)) (S : Finset UserId) (m : Message),
      Except.ok m ∈ rtRun S items →
      ∃ pre post, items = pre ++ RTItem.right (Except.ok m) :: post ∧
        m.user_id ∈ rtState S pre := by
  intro items
  induction items with
  | nil => intro S m h; simp [rtRun] at h
  | cons it rest ih =>
    intro S m h
    cases it with
    | left x =>
      cases x with
      | ok fu =>
        cases fu with
        | new f =>
          have h' : Except.ok m ∈ rtRun (insert f S) rest := h
          obtain ⟨pre, post, h1, h2⟩ := ih (insert f S) m h'
          exact ⟨RTItem.left (Except.ok (FriendUpdate.new f)) :: pre, post,
            by rw [h1]; rfl, h2⟩
        | removed f =>
          have h' : Except.ok m ∈ rtRun (S.erase f) rest := h
          obtain ⟨pre, post, h1, h2⟩ := ih (S.erase f) m h'
          exact ⟨RTItem.left (Except.ok (FriendUpdate.removed f)) :: pre, post,
            by rw [h1]; rfl, h2⟩
      | error e =>
        have h' : Except.ok m ∈ Except.error e :: rtRun S rest := h
        rcases List.mem_cons.1 h' with heq | htail
        · exact absurd heq (by simp)
        · obtain ⟨pre, post, h1, h2⟩ := ih S m htail
          exact ⟨RTItem.left (Except.error e) :: pre, post, by rw [h1]; rfl, h2⟩
    | right x =>
      cases x with
      | ok m' =>
        by_cases hmem : m'.user_id ∈ S
        · have hrw : rtRun S (RTItem.right (Except.ok m') :: rest) =
              Except.ok m' :: rtRun S rest := by
            simp [rtRun, rtStep, hmem]
          rw [hrw] at h
          rcases List.mem_cons.1 h with heq | htail
          · obtain rfl : m = m' := by
              injection heq
            exact ⟨[], rest, rfl, hmem⟩
          · obtain ⟨pre, post, h1, h2⟩ := ih S m htail
            exact ⟨RTItem.right (Except.ok m') :: pre, post, by rw [h1]; rfl, h2⟩
        · have hrw : rtRun S (RTItem.right (Except.ok m') :: rest) =
              rtRun S rest := by
            simp [rtRun, rtStep, hmem]
          rw [hrw] at h
          obtain ⟨pre, post, h1, h2⟩ := ih S m h
          exact ⟨RTItem.right (Except.ok m') :: pre, post, by rw [h1]; rfl, h2⟩
      | error e =>
        have h' : Except.ok m ∈ Except.error e :: rtRun S rest := h
        rcases List.mem_cons.1 h' with heq | htail
        · exact absurd heq (by simp)
        · obtain ⟨pre, post, h1, h2⟩ := ih S m htail
          exact ⟨RTItem.right (Except.error e) :: pre, post, by rw [h1]; rfl, h2⟩

/-- C1: every message emitted by the real-time timeline reducer (over
any interleaving of friend updates and messages, starting from the
empty friend set) was authored by a member of the `currentFriends` set
accumulated from the `FriendUpdate` items processed before the
emission: there is a decomposition of the input placing the message
after exactly the updates whose fold contains its author. -/
theorem c1_rt_emitted_author_in_current_friends {ε : Type}
    (items : List (RTItem ε)) (m : Message)
    (h : Except.ok m ∈ rtRun ∅ items) :
    ∃ pre post, items = pre ++ RTItem.right (Except.ok m) :: post ∧
      m.user_id ∈ rtState ∅ pre :=
  rtRun_ok_mem_aux items ∅ m h

/-- Witness for C1 on the spec's "real-time filtering" scenario: the
message from the freshly added friend `2` is emitted, and its author is
in the accumulated friend set at that point. -/
theorem c1_rt_emitted_witness :
    (Except.ok (⟨⟨2, 20⟩, 2, 20, "yo"⟩ : Message) ∈
      rtRun (∅ : Finset UserId) rtWitnessItems) ∧
    ∃ pre post,
      rtWitnessItems = pre ++
        RTItem.right (Except.ok (⟨⟨2, 20⟩, 2, 20, "yo"⟩ : Message)) :: post ∧
      (⟨⟨2, 20⟩, 2, 20, "yo"⟩ : Message).user_id ∈ rtState ∅ pre :=
  ⟨by decide,
    c1_rt_emitted_author_in_current_friends rtWitnessItems _ (by decide)⟩

/-- C8: with well-formed ids, each of the three write-path RPCs returns
exactly the result of its persistence half: a publish failure is
discarded (`_rt`), a persistence failure is propagated by `?`, and
persistence success yields `{ success: true }` whatever the publish
did. -/
theorem c8_write_result_is_persistence_result :
    ∀ (pu pf : Except String UserId) (u f : UserId)
      (rt : Except String Unit) (pers : Except Status Unit),
      pu = Except.ok u → pf = Except.ok f →
      addFriendHandler pu pf rt pers = persistenceOnly ⟨true⟩ pers ∧
      removeFriendHandler pu pf rt pers = persistenceOnly ⟨true⟩ pers ∧
      postMessageHandler pu rt pers = persistenceOnly ⟨true⟩ pers := by
  intro pu pf u f rt pers hu hf
  subst hu; subst hf
  refine ⟨?_, ?_, ?_⟩ <;> cases pers <;> rfl

/-- Witness for C8: valid ids, failed publish, successful persistence —
all three writes succeed. -/
theorem c8_write_result_witness :
    addFriendHandler (Except.ok 1) (Except.ok 2) (Except.error "bus down")
        (Except.ok ()) = persistenceOnly ⟨true⟩ (Except.ok ()) ∧
    removeFriendHandler (Except.ok 1) (Except.ok 2) (Except.error "bus down")
        (Except.ok ()) = persistenceOnly ⟨true⟩ (Except.ok ()) ∧
    postMessageHandler (Except.ok 1) (Except.error "bus down")
        (Except.ok ()) = persistenceOnly ⟨true⟩ (Except.ok ()) :=
  c8_write_result_is_persistence_result (Except.ok 1) (Except.ok 2) 1 2
    (Except.error "bus down") (Except.ok ()) rfl rfl

/-- From every state with something queued or spawned, the dispatcher
or the runtime can take a step: the manager never gets stuck with
pending work. -/
theorem tmStep_progress (res : Nat → Nat) (s : TMState)
    (h : ¬(s.queued = [] ∧ s.spawned = [])) : ∃ s', TMStep res s s' := by
  cases hq : s.queued with
  | cons t rest => exact ⟨_, TMStep.dispatch s t rest hq⟩
  | nil =>
    cases hs : s.spawned with
    | nil => exact absurd ⟨hq, hs⟩ h
    | cons t rest =>
      exact ⟨_, TMStep.run s t (by rw [hs]; exact List.mem_cons_self _ _)⟩

/-- C9: a task handed to the manager is never lost: along every
execution — including executions that drop the one-shot receiver or
cancel the originating request (`dropRecv` steps, which only flip the
`alive` flag) — the task stays queued, or spawned, or has run; in any
reachable state with the queue and the runtime drained, its result
`res t` has been computed and recorded.  Dropping the completion
receiver only affects delivery on the one-shot (`let _ =
sender.send(r)`), never execution. -/
theorem c9_spawned_task_runs_to_completion
    (res : Nat → Nat) (s0 s : TMState) (t : Nat)
    (h0 : t ∈ s0.queued)
    (hr : Relation.ReflTransGen (TMStep res) s0 s)
    (hq : s.queued = []) (hs : s.spawned = []) :
    (t, res t) ∈ s.done := by
  have hinv : ∀ s1 s2, TMStep res s1 s2 →
      (t ∈ s1.queued ∨ t ∈ s1.spawned ∨ (t, res t) ∈ s1.done) →
      (t ∈ s2.queued ∨ t ∈ s2.spawned ∨ (t, res t) ∈ s2.done) := by
    intro s1 s2 hstep hP
    cases hstep with
    | dispatch t' rest hq1 =>
      rcases hP with hP | hP | hP
      · rw [hq1] at hP
        rcases List.mem_cons.1 hP with rfl | hP
        · right; left; simp
        · left; exact hP
      · right; left; simp [hP]
      · right; right; exact hP
    | run t' hmem =>
      rcases hP with hP | hP | hP
      · left; exact hP
      · by_cases het : t = t'
        · subst het
          right; right; exact List.mem_cons_self _ _
        · right; left
          exact (List.mem_erase_of_ne het).2 hP
      · right; right
        exact List.mem_cons.2 (Or.inr hP)
    | dropRecv t' halive =>
      exact hP
  have hP : t ∈ s.queued ∨ t ∈ s.spawned ∨ (t, res t) ∈ s.done := by
    clear hq hs
    induction hr with
    | refl => left; exact h0
    | tail hab hbc ih => exact hinv _ _ hbc ih
  rcases hP with hP | hP | hP
  · rw [hq] at hP; simp at hP
  · rw [hs] at hP; simp at hP
  · exact hP

/-- Witness for C9: task `5` is queued, its receiver dropped, then it
is dispatched and run; the drained final state has recorded the
result. -/
theorem c9_spawned_task_witness :
    5 ∈ tmS0.queued ∧ tmS3.queued = [] ∧ tmS3.spawned = [] ∧
    (5, tmRes 5) ∈ tmS3.done :=
  ⟨by decide, rfl, by decide,
    c9_spawned_task_runs_to_completion tmRes tmS0 tmS3 5 (by decide)
      (Relation.ReflTransGen.head (TMStep.dropRecv tmS0 5 rfl)
        (Relation.ReflTransGen.head (TMStep.dispatch tmS1 5 [] rfl)
          (Relation.ReflTransGen.head (TMStep.run tmS2 5 (by decide))
            Relation.ReflTransGen.refl)))
      rfl (by decide)⟩

end SocialNetwork
